import Mathlib

/-!
# Verification of the Merkle allowlist core of dapp_punks

This development embeds the Merkle-tree allowlist logic of the repository:
the `CustomMerkleTree` wrapper of `src/utils.js` (which delegates tree
construction, proof generation and verification to the merkletreejs
library configured with `hashLeaves: false, sortPairs: true` and the
default `duplicateOdd: false`), the factory `buildMerkleTree`, the lookup
`getMerkleProof`, and the on-chain verifier `NFT.isAddressAllowed` of
`contracts/NFT.sol` (which delegates to OpenZeppelin `MerkleProof.verify`).

Byte strings (Buffers) are modelled as lists of naturals (one byte per
entry), hashing is the real Keccak-256 function (implemented below over
Nat arithmetic and validated against standard test vectors), and
JavaScript exceptions are modelled with `Except String`.
-/

set_option maxRecDepth 1000000

namespace DappPunks

/-- Byte sequences (Buffers / Uint8Arrays): each entry is one byte 0..255. -/
abbrev Bytes := List Nat

/-! ## Keccak-256

Model of the `keccak256` function of ethers (the hash passed to the
merkletreejs constructor in `src/utils.js` and used by its `hashLeaf`),
which is also Solidity's built-in `keccak256`.  Lanes are 64-bit words
represented as `Nat` reduced modulo 2^64; the 5x5 lane grid is a
structure with one field per lane, flattened in index order x + 5*y,
which the kernel can evaluate quickly.  The rho/pi/chi steps are written
out lane by lane following the standard tables of FIPS 202; correctness
of the whole implementation is checked against three independent
published digests below. -/

/-- 2^64 - 1, the 64-bit lane mask. -/
def mask64 : Nat := 0xFFFFFFFFFFFFFFFF

/-- Rotate a 64-bit lane left by n (0 ≤ n < 64). -/
def rotl64 (x n : Nat) : Nat := ((x <<< n) ||| (x >>> (64 - n))) &&& mask64

/-- The 5x5 grid of 64-bit lanes of the Keccak state, field `a(x+5*y)`
holding lane (x, y). -/
structure KState where
  a0 : Nat
  a1 : Nat
  a2 : Nat
  a3 : Nat
  a4 : Nat
  a5 : Nat
  a6 : Nat
  a7 : Nat
  a8 : Nat
  a9 : Nat
  a10 : Nat
  a11 : Nat
  a12 : Nat
  a13 : Nat
  a14 : Nat
  a15 : Nat
  a16 : Nat
  a17 : Nat
  a18 : Nat
  a19 : Nat
  a20 : Nat
  a21 : Nat
  a22 : Nat
  a23 : Nat
  a24 : Nat
deriving Repr

/-- One Keccak-f[1600] round: theta, rho, pi, chi, iota.  The `c`/`d`
values are the theta column parities, `t` the state after theta, `b` the
state after rho and pi (source lane and rotation per FIPS 202), and the
result combines chi with the iota round constant on lane (0,0). -/
def keccakRound (s : KState) (rc : Nat) : KState :=
  let c0 := s.a0 ^^^ s.a5 ^^^ s.a10 ^^^ s.a15 ^^^ s.a20
  let c1 := s.a1 ^^^ s.a6 ^^^ s.a11 ^^^ s.a16 ^^^ s.a21
  let c2 := s.a2 ^^^ s.a7 ^^^ s.a12 ^^^ s.a17 ^^^ s.a22
  let c3 := s.a3 ^^^ s.a8 ^^^ s.a13 ^^^ s.a18 ^^^ s.a23
  let c4 := s.a4 ^^^ s.a9 ^^^ s.a14 ^^^ s.a19 ^^^ s.a24
  let d0 := c4 ^^^ rotl64 c1 1
  let d1 := c0 ^^^ rotl64 c2 1
  let d2 := c1 ^^^ rotl64 c3 1
  let d3 := c2 ^^^ rotl64 c4 1
  let d4 := c3 ^^^ rotl64 c0 1
  let t0 := s.a0 ^^^ d0
  let t1 := s.a1 ^^^ d1
  let t2 := s.a2 ^^^ d2
  let t3 := s.a3 ^^^ d3
  let t4 := s.a4 ^^^ d4
  let t5 := s.a5 ^^^ d0
  let t6 := s.a6 ^^^ d1
  let t7 := s.a7 ^^^ d2
  let t8 := s.a8 ^^^ d3
  let t9 := s.a9 ^^^ d4
  let t10 := s.a10 ^^^ d0
  let t11 := s.a11 ^^^ d1
  let t12 := s.a12 ^^^ d2
  let t13 := s.a13 ^^^ d3
  let t14 := s.a14 ^^^ d4
  let t15 := s.a15 ^^^ d0
  let t16 := s.a16 ^^^ d1
  let t17 := s.a17 ^^^ d2
  let t18 := s.a18 ^^^ d3
  let t19 := s.a19 ^^^ d4
  let t20 := s.a20 ^^^ d0
  let t21 := s.a21 ^^^ d1
  let t22 := s.a22 ^^^ d2
  let t23 := s.a23 ^^^ d3
  let t24 := s.a24 ^^^ d4
  let b0 := t0
  let b1 := rotl64 t6 44
  let b2 := rotl64 t12 43
  let b3 := rotl64 t18 21
  let b4 := rotl64 t24 14
  let b5 := rotl64 t3 28
  let b6 := rotl64 t9 20
  let b7 := rotl64 t10 3
  let b8 := rotl64 t16 45
  let b9 := rotl64 t22 61
  let b10 := rotl64 t1 1
  let b11 := rotl64 t7 6
  let b12 := rotl64 t13 25
  let b13 := rotl64 t19 8
  let b14 := rotl64 t20 18
  let b15 := rotl64 t4 27
  let b16 := rotl64 t5 36
  let b17 := rotl64 t11 10
  let b18 := rotl64 t17 15
  let b19 := rotl64 t23 56
  let b20 := rotl64 t2 62
  let b21 := rotl64 t8 55
  let b22 := rotl64 t14 39
  let b23 := rotl64 t15 41
  let b24 := rotl64 t21 2
  ⟨(b0 ^^^ ((b1 ^^^ mask64) &&& b2)) ^^^ rc,
   b1 ^^^ ((b2 ^^^ mask64) &&& b3),
   b2 ^^^ ((b3 ^^^ mask64) &&& b4),
   b3 ^^^ ((b4 ^^^ mask64) &&& b0),
   b4 ^^^ ((b0 ^^^ mask64) &&& b1),
   b5 ^^^ ((b6 ^^^ mask64) &&& b7),
   b6 ^^^ ((b7 ^^^ mask64) &&& b8),
   b7 ^^^ ((b8 ^^^ mask64) &&& b9),
   b8 ^^^ ((b9 ^^^ mask64) &&& b5),
   b9 ^^^ ((b5 ^^^ mask64) &&& b6),
   b10 ^^^ ((b11 ^^^ mask64) &&& b12),
   b11 ^^^ ((b12 ^^^ mask64) &&& b13),
   b12 ^^^ ((b13 ^^^ mask64) &&& b14),
   b13 ^^^ ((b14 ^^^ mask64) &&& b10),
   b14 ^^^ ((b10 ^^^ mask64) &&& b11),
   b15 ^^^ ((b16 ^^^ mask64) &&& b17),
   b16 ^^^ ((b17 ^^^ mask64) &&& b18),
   b17 ^^^ ((b18 ^^^ mask64) &&& b19),
   b18 ^^^ ((b19 ^^^ mask64) &&& b15),
   b19 ^^^ ((b15 ^^^ mask64) &&& b16),
   b20 ^^^ ((b21 ^^^ mask64) &&& b22),
   b21 ^^^ ((b22 ^^^ mask64) &&& b23),
   b22 ^^^ ((b23 ^^^ mask64) &&& b24),
   b23 ^^^ ((b24 ^^^ mask64) &&& b20),
   b24 ^^^ ((b20 ^^^ mask64) &&& b21)⟩

/-- The 24 Keccak-f[1600] round constants. -/
def keccakRC : List Nat :=
  [0x0000000000000001, 0x0000000000008082, 0x800000000000808A] ++
    [0x8000000080008000, 0x000000000000808B, 0x0000000080000001] ++
    [0x8000000080008081, 0x8000000000008009, 0x000000000000008A] ++
    [0x0000000000000088, 0x0000000080008009, 0x000000008000000A] ++
    [0x000000008000808B, 0x800000000000008B, 0x8000000000008089] ++
    [0x8000000000008003, 0x8000000000008002, 0x8000000000000080] ++
    [0x000000000000800A, 0x800000008000000A, 0x8000000080008081] ++
    [0x8000000000008080, 0x0000000080000001, 0x8000000080008008]

/-- The full Keccak-f[1600] permutation (24 rounds). -/
def keccakP (s : KState) : KState := keccakRC.foldl keccakRound s

/-- Assemble a little-endian 64-bit lane from up to 8 bytes. -/
def bytesToLane (bs : Bytes) : Nat := bs.foldr (fun b acc => b + 256 * acc) 0

/-- Lane i of a 136-byte rate block (bytes 8i .. 8i+7, little endian). -/
def blockLane (block : Bytes) (i : Nat) : Nat :=
  bytesToLane ((block.drop (8 * i)).take 8)

/-- XOR one 136-byte block into the first 17 lanes of the state and permute. -/
def absorbBlock (s : KState) (block : Bytes) : KState :=
  keccakP
    ⟨s.a0 ^^^ blockLane block 0, s.a1 ^^^ blockLane block 1,
     s.a2 ^^^ blockLane block 2, s.a3 ^^^ blockLane block 3,
     s.a4 ^^^ blockLane block 4, s.a5 ^^^ blockLane block 5,
     s.a6 ^^^ blockLane block 6, s.a7 ^^^ blockLane block 7,
     s.a8 ^^^ blockLane block 8, s.a9 ^^^ blockLane block 9,
     s.a10 ^^^ blockLane block 10, s.a11 ^^^ blockLane block 11,
     s.a12 ^^^ blockLane block 12, s.a13 ^^^ blockLane block 13,
     s.a14 ^^^ blockLane block 14, s.a15 ^^^ blockLane block 15,
     s.a16 ^^^ blockLane block 16, s.a17, s.a18, s.a19,
     s.a20, s.a21, s.a22, s.a23, s.a24⟩

/-- Keccak padding: pad10*1 with the 0x01 domain byte of original Keccak
(as used by Ethereum, not the 0x06 of NIST SHA-3); rate 136 bytes. -/
def keccakPad (msg : Bytes) : Bytes :=
  let padLen := 136 - msg.length % 136
  if padLen = 1 then msg ++ [0x81]
  else msg ++ [0x01] ++ List.replicate (padLen - 2) 0 ++ [0x80]

/-- Absorb a padded message block by block; structural recursion on a fuel
bound (each step consumes 136 bytes, so fuel = length always suffices). -/
def absorbFuel : Nat → KState → Bytes → KState
  | _, s, [] => s
  | 0, s, _ => s
  | fuel + 1, s, bs => absorbFuel fuel (absorbBlock s (bs.take 136)) (bs.drop 136)

/-- The 8 little-endian bytes of a 64-bit lane. -/
def laneBytes (lane : Nat) : Bytes :=
  (List.range 8).map (fun k => (lane >>> (8 * k)) % 256)

/-- Keccak-256 of a byte sequence (Ethereum's keccak256). -/
def keccak256 (msg : Bytes) : Bytes :=
  let padded := keccakPad msg
  let s := absorbFuel padded.length
    ⟨0, 0, 0, 0, 0, 0, 0, 0, 0, 0, 0, 0, 0, 0, 0, 0, 0, 0, 0, 0, 0, 0, 0, 0, 0⟩ padded
  laneBytes s.a0 ++ laneBytes s.a1 ++ laneBytes s.a2 ++ laneBytes s.a3

/-! ## Hex strings

The JavaScript side passes digests around as 0x-prefixed lowercase hex
strings.  `bytesToHex` models Buffer.toString('hex'); `jsHexBytes` models
Node's lenient Buffer.from(str, 'hex'), which decodes two characters at a
time and silently stops at the first invalid pair (it never throws). -/

/-- Value of one hex digit character, case-insensitive. -/
def hexVal? (c : Char) : Option Nat :=
  if '0' ≤ c ∧ c ≤ '9' then some (c.toNat - 48)
  else if 'a' ≤ c ∧ c ≤ 'f' then some (c.toNat - 87)
  else if 'A' ≤ c ∧ c ≤ 'F' then some (c.toNat - 55)
  else none

/-- Node Buffer.from(s, 'hex'): decode pairs of hex digits, stopping
silently at the first invalid or unpaired character. -/
def jsHexBytes : List Char → Bytes
  | c1 :: c2 :: rest =>
    match hexVal? c1, hexVal? c2 with
    | some h, some l => (16 * h + l) :: jsHexBytes rest
    | _, _ => []
  | _ => []

/-- Strict hex decoding: all characters must be hex digits (used for
address parsing, where ethers throws on malformed input). -/
def parseHexBytes? : List Char → Option Bytes
  | [] => some []
  | [_] => none
  | c1 :: c2 :: rest =>
    match hexVal? c1, hexVal? c2, parseHexBytes? rest with
    | some h, some l, some bs => some ((16 * h + l) :: bs)
    | _, _, _ => none

/-- Lowercase hex digit character for a value 0..15. -/
def hexDigitChar (n : Nat) : Char :=
  if n < 10 then Char.ofNat (48 + n) else Char.ofNat (87 + n)

/-- Two lowercase hex characters of one byte. -/
def byteToHex (b : Nat) : List Char := [hexDigitChar (b / 16), hexDigitChar (b % 16)]

/-- Buffer.toString('hex'): lowercase hex rendering of a byte sequence. -/
def bytesToHex (bs : Bytes) : String := String.mk ((bs.map byteToHex).foldr (· ++ ·) [])

/-- The 0x-prefixed hex rendering ('0x' + buf.toString('hex')) used at the
proof and root boundaries of `src/utils.js`. -/
def toHex0x (bs : Bytes) : String := "0x" ++ bytesToHex bs

/-- The JavaScript s.slice(2), dropping the 0x tag. -/
def jsSliceFrom2 (s : String) : List Char := s.data.drop 2

/-- Modelled from the spec: the address normalization performed by the
ethers coder before hashing ("case-insensitive textual representation
must be normalized ... before hashing").  A textual address is 0x
followed by exactly 40 hex digits of either case, denoting 20 bytes.
ethers additionally rejects mixed-case strings whose EIP-55 checksum is
wrong; that rejection is not modelled (every theorem below instantiates
addresses with uniform-case strings, which ethers accepts verbatim). -/
def parseAddress (s : String) : Option Bytes :=
  if s.data.take 2 = ['0', 'x'] ∧ s.data.length = 42 then parseHexBytes? (s.data.drop 2)
  else none

/-- abi.encode(['address'], [a]): one 32-byte word, the 20 address bytes
right-aligned (12 zero bytes of left padding). -/
def abiEncodeAddress (a : Bytes) : Bytes := List.replicate 12 0 ++ a

/-! ## The merkletreejs MerkleTree

Model of the merkletreejs library as instantiated by `src/utils.js`:
`new MerkleTree(leaves, keccak256, { hashLeaves: false, sortPairs: true })`
(and thus the default `duplicateOdd: false`).  The hash is kept as an
explicit parameter H, exactly as merkletreejs receives it. -/

/-- Buffer.compare a b == -1: strict byte-wise lexicographic order
(a strict prefix is smaller). -/
def bufLt : Bytes → Bytes → Bool
  | [], [] => false
  | [], _ :: _ => true
  | _ :: _, [] => false
  | a :: as, b :: bs => if a < b then true else if b < a then false else bufLt as bs

/-- Sorted-pair combination: with sortPairs merkletreejs concatenates the
two children in Buffer.compare order and hashes ([left, right] sorted by
Buffer.compare in createHashes; hash < data comparison in verify). -/
def combine (H : Bytes → Bytes) (a b : Bytes) : Bytes :=
  H (if bufLt a b then a ++ b else b ++ a)

/-- One layer step of merkletreejs createHashes: adjacent pairs are
combined; with duplicateOdd false an unpaired trailing node is pushed to
the next layer unchanged. -/
def nextLayer (H : Bytes → Bytes) : List Bytes → List Bytes
  | [] => []
  | [a] => [a]
  | a :: b :: rest => combine H a b :: nextLayer H rest

/-- All layers, bottom up, until a single node remains; structural
recursion on a fuel bound (each step shrinks a layer of length ≥ 2, so
fuel = length always suffices). -/
def layersFuel (H : Bytes → Bytes) : Nat → List Bytes → List (List Bytes)
  | 0, layer => [layer]
  | fuel + 1, layer =>
    if layer.length ≤ 1 then [layer]
    else layer :: layersFuel H fuel (nextLayer H layer)

/-- this.layers of a merkletreejs tree: layer 0 is the leaves, the last
layer holds the root alone (for nonempty leaves). -/
def buildLayers (H : Bytes → Bytes) (leaves : List Bytes) : List (List Bytes) :=
  layersFuel H leaves.length leaves

/-- getRoot(): the single node of the top layer, or the empty Buffer. -/
def layersRoot (ls : List (List Bytes)) : Bytes := (ls.getLastD []).headD []

/-- A merkletreejs MerkleTree built with hashLeaves: false (the leaves
are stored as given) and sortPairs: true. -/
structure MerkleTreeJS where
  leaves : List Bytes
  layers : List (List Bytes)
deriving Repr

/-- The MerkleTree constructor (processLeaves). -/
def MerkleTreeJS.ofLeaves (H : Bytes → Bytes) (leaves : List Bytes) : MerkleTreeJS :=
  ⟨leaves, buildLayers H leaves⟩

/-- getRoot() of a tree. -/
def MerkleTreeJS.getRoot (t : MerkleTreeJS) : Bytes := layersRoot t.layers

/-- The sibling position of index i within a layer (isRightNode in
merkletreejs getProof). -/
def pairIdx (i : Nat) : Nat := if i % 2 = 1 then i - 1 else i + 1

/-- The layer walk of merkletreejs getProof: at each layer append the
sibling if it exists (an unpaired promoted node contributes nothing) and
move to the parent index i / 2. -/
def proofWalk : List (List Bytes) → Nat → List Bytes
  | [], _ => []
  | layer :: rest, i =>
    match layer.get? (pairIdx i) with
    | some sib => sib :: proofWalk rest (i / 2)
    | none => proofWalk rest (i / 2)

/-- The index scan of merkletreejs getProof when called without an index
argument: it runs over all leaves and keeps overwriting the index on
every Buffer.compare match, so it finds the LAST occurrence of the leaf
value (none models the -1 of a missing leaf). -/
def lastIdx (leaf : Bytes) : List Bytes → Option Nat
  | [] => none
  | b :: bs =>
    match lastIdx leaf bs with
    | some j => some (j + 1)
    | none => if b == leaf then some 0 else none

/-- getProof(leaf): look the leaf value up (last occurrence) and walk the
layers; an absent leaf yields the empty proof. -/
def MerkleTreeJS.getProof (t : MerkleTreeJS) (leaf : Bytes) : List Bytes :=
  match lastIdx leaf t.leaves with
  | none => []
  | some i => proofWalk t.layers i

/-- verify(proof, targetNode, root) with sortPairs: fold the proof into
the target with the sorted-pair combination and compare to the root.
Total: no input can make it throw. -/
def MerkleTreeJS.verify (H : Bytes → Bytes) (_t : MerkleTreeJS)
    (proof : List Bytes) (targetNode root : Bytes) : Bool :=
  (proof.foldl (fun h p => combine H h p) targetNode) == root

/-! ## The CustomMerkleTree wrapper of src/utils.js -/

/-- The CustomMerkleTree of `src/utils.js` in its post-initialize() state
(`buildMerkleTree` always awaits initialize() before handing the tree
out, so `tree` is never null when `initialized` is true). -/
structure CustomMerkleTree where
  values : List (List String)
  leafEncoding : List String
  leaves : List Bytes
  tree : MerkleTreeJS
  initialized : Bool
deriving Repr

/-- hashLeaf of CustomMerkleTree for the 'address' encoding:
keccak256(bytes.concat(keccak256(abi.encode(address)))) as in the
OpenZeppelin StandardMerkleTree, with ethers throwing (here: `.error`)
on a malformed address.  The JSON.stringify fallback branch for other
encodings is unreachable in this repository (`buildMerkleTree` always
passes ['address']) and is modelled as an error. -/
def hashLeaf (leafEncoding : List String) (value : List String) : Except String Bytes :=
  if leafEncoding.contains "address" then
    match parseAddress (value.getD 0 "") with
    | some a => .ok (keccak256 (keccak256 (abiEncodeAddress a)))
    | none => .error "invalid address"
  else .error "non-address leaf encoding not modelled"

/-- this.values.map(hashLeaf) with JavaScript exception propagation: the
first throwing element aborts the map. -/
def mapLeaves (enc : List String) : List (List String) → Except String (List Bytes)
  | [] => .ok []
  | v :: vs =>
    match hashLeaf enc v with
    | .error e => .error e
    | .ok b =>
      match mapLeaves enc vs with
      | .error e => .error e
      | .ok bs => .ok (b :: bs)

/-- wrapAddresses: wrap each address in a singleton value array. -/
def wrapAddresses (allowedAddresses : List String) : List (List String) :=
  allowedAddresses.map (fun addr => [addr])

/-- buildMerkleTree: wrap the addresses, construct the CustomMerkleTree
with the ['address'] encoding and initialize it (hash all leaves, build
the merkletreejs tree with keccak256 and sortPairs). -/
def buildMerkleTree (allowedAddresses : List String) : Except String CustomMerkleTree :=
  let wrapped := wrapAddresses allowedAddresses
  match mapLeaves ["address"] wrapped with
  | .error e => .error e
  | .ok leaves =>
    .ok ⟨wrapped, ["address"], leaves, MerkleTreeJS.ofLeaves keccak256 leaves, true⟩

/-- The root getter: null (none) when not initialized, otherwise
'0x' + getRoot().toString('hex'). -/
def CustomMerkleTree.root (t : CustomMerkleTree) : Option String :=
  if t.initialized then some (toHex0x t.tree.getRoot) else none

/-- getProof(index): initialization check, bounds check (the index comes
from a JavaScript findIndex and may be -1), then a proof for the LEAF
VALUE stored at the index, rendered as 0x hex strings. -/
def CustomMerkleTree.getProof (t : CustomMerkleTree) (index : Int) :
    Except String (List String) :=
  if !t.initialized then .error "Tree not initialized. Call initialize() first."
  else if index < 0 ∨ (t.values.length : Int) ≤ index then .error "Index out of bounds"
  else .ok ((t.tree.getProof (t.leaves.getD index.toNat [])).map toHex0x)

/-- verify(proof, root, leaf): false when not initialized, otherwise
decode the three hex arguments leniently and delegate to
merkletreejs verify.  Total: returns a Bool on every input. -/
def CustomMerkleTree.verify (t : CustomMerkleTree) (proof : List String)
    (root leaf : String) : Bool :=
  if !t.initialized then false
  else
    let proofBuffers := proof.map (fun p => jsHexBytes (jsSliceFrom2 p))
    let leafBuffer := jsHexBytes (jsSliceFrom2 leaf)
    let rootBuffer := jsHexBytes (jsSliceFrom2 root)
    t.tree.verify keccak256 proofBuffers leafBuffer rootBuffer

/-- getMerkleProof: find the index of the address in the wrapped allowlist
by strict string equality (JavaScript findIndex, -1 when absent) and ask
the tree for the proof at that index. -/
def getMerkleProof (tree : CustomMerkleTree) (address : String)
    (allowedAddresses : List String) : Except String (List String) :=
  let index : Int :=
    match (wrapAddresses allowedAddresses).findIdx? (fun addr => addr.getD 0 "" == address) with
    | some i => (i : Int)
    | none => -1
  tree.getProof index

/-! ## The on-chain verifier of contracts/NFT.sol -/

/-- OpenZeppelin MerkleProof.processProof: fold the proof into the leaf
with commutative sorted-pair keccak hashing (_hashPair compares the two
bytes32 values numerically, which on equal-length 32-byte strings is
exactly the byte-wise lexicographic order of `combine`). -/
def processProof (proof : List Bytes) (leaf : Bytes) : Bytes :=
  proof.foldl (fun computedHash p => combine keccak256 computedHash p) leaf

/-- NFT.isAddressAllowed: the leaf is keccak256(abi.encodePacked(addr)),
i.e. a SINGLE keccak256 of the 20 raw address bytes, then
MerkleProof.verify(proof, allowedAddressesRoot, leaf). -/
def isAddressAllowed (allowedAddressesRoot : Bytes) (addr : Bytes)
    (merkleProof : List Bytes) : Bool :=
  processProof merkleProof (keccak256 addr) == allowedAddressesRoot

/-! ## Concrete inputs used by witnesses and counterexamples -/

/-- A concrete allowlist address (the 0xAAAA...01 of the spec example). -/
def addrA : String := "0xaaaaaaaaaaaaaaaaaaaaaaaaaaaaaaaaaaaaaa01"

/-- A concrete allowlist address (the 0xBBBB...02 of the spec example). -/
def addrB : String := "0xbbbbbbbbbbbbbbbbbbbbbbbbbbbbbbbbbbbbbb02"

/-- A third concrete address. -/
def addrC : String := "0xcccccccccccccccccccccccccccccccccccccc03"

/-- The upper-case rendering of the hex digits of addrA (same 20 bytes). -/
def addrAUpper : String := "0xAAAAAAAAAAAAAAAAAAAAAAAAAAAAAAAAAAAAAA01"

/-! ## Keccak-256 test vectors -/

/-- Sanity check: the well-known Keccak-256 digest of the empty string. -/
theorem keccak256_nil :
    keccak256 [] =
      [0xc5, 0xd2, 0x46, 0x01, 0x86, 0xf7, 0x23, 0x3c,
       0x92, 0x7e, 0x7d, 0xb2, 0xdc, 0xc7, 0x03, 0xc0,
       0xe5, 0x00, 0xb6, 0x53, 0xca, 0x82, 0x27, 0x3b,
       0x7b, 0xfa, 0xd8, 0x04, 0x5d, 0x85, 0xa4, 0x70] := by decide

/-- Sanity check: Keccak-256 of the three ASCII bytes "abc". -/
theorem keccak256_abc :
    keccak256 [0x61, 0x62, 0x63] =
      [0x4e, 0x03, 0x65, 0x7a, 0xea, 0x45, 0xa9, 0x4f,
       0xc7, 0xd4, 0x7b, 0xa8, 0x26, 0xc8, 0xd6, 0x67,
       0xc0, 0xd1, 0xe6, 0xe3, 0x3a, 0x64, 0xa0, 0x36,
       0xec, 0x44, 0xf5, 0x8f, 0xa1, 0x2d, 0x6c, 0x45] := by decide

/-- Sanity check: Keccak-256 of 32 zero bytes (the Ethereum zero-slot hash). -/
theorem keccak256_zero32 :
    keccak256 (List.replicate 32 0) =
      [0x29, 0x0d, 0xec, 0xd9, 0x54, 0x8b, 0x62, 0xa8,
       0xd6, 0x03, 0x45, 0xa9, 0x88, 0x38, 0x6f, 0xc8,
       0x4b, 0xa6, 0xbc, 0x95, 0x48, 0x40, 0x08, 0xf6,
       0x36, 0x2f, 0x93, 0x16, 0x0e, 0xf3, 0xe5, 0x63] := by decide

/-! ## Layer construction lemmas -/

theorem nextLayer_length (H : Bytes → Bytes) :
    ∀ l : List Bytes, (nextLayer H l).length = (l.length + 1) / 2
  | [] => rfl
  | [_] => by simp [nextLayer]
  | _ :: _ :: rest => by
    simp only [nextLayer, List.length_cons, nextLayer_length H rest]
    omega

theorem layersFuel_irrel (H : Bytes → Bytes) :
    ∀ f1 f2 : Nat, ∀ l : List Bytes, l.length ≤ f1 → l.length ≤ f2 →
      layersFuel H f1 l = layersFuel H f2 l := by
  intro f1
  induction f1 with
  | zero =>
    intro f2 l h1 _
    have hl : l = [] := List.length_eq_zero.mp (Nat.le_zero.mp h1)
    subst hl
    cases f2 with
    | zero => rfl
    | succ f2 => simp [layersFuel]
  | succ f1 ih =>
    intro f2 l h1 h2
    cases f2 with
    | zero =>
      have hl : l = [] := List.length_eq_zero.mp (Nat.le_zero.mp h2)
      subst hl
      simp [layersFuel]
    | succ f2 =>
      simp only [layersFuel]
      by_cases hsmall : l.length ≤ 1
      · simp [hsmall]
      · have hlen : 2 ≤ l.length := by omega
        have hnext : (nextLayer H l).length ≤ f1 := by
          rw [nextLayer_length]; omega
        have hnext2 : (nextLayer H l).length ≤ f2 := by
          rw [nextLayer_length]; omega
        simp [hsmall, ih f2 (nextLayer H l) hnext hnext2]

theorem buildLayers_small (H : Bytes → Bytes) (l : List Bytes) (h : l.length ≤ 1) :
    buildLayers H l = [l] := by
  unfold buildLayers
  cases hl : l with
  | nil => rfl
  | cons a rest =>
    subst hl
    have : rest = [] := by
      have := h
      simp only [List.length_cons] at this
      exact List.length_eq_zero.mp (by omega)
    subst this
    simp [layersFuel]

theorem buildLayers_step (H : Bytes → Bytes) (l : List Bytes) (h : 2 ≤ l.length) :
    buildLayers H l = l :: buildLayers H (nextLayer H l) := by
  unfold buildLayers
  obtain ⟨f, hf⟩ : ∃ f, l.length = f + 1 := ⟨l.length - 1, by omega⟩
  rw [hf]
  simp only [layersFuel]
  have hns : ¬ l.length ≤ 1 := by omega
  simp only [hns, if_false]
  have hnext : (nextLayer H l).length ≤ f := by
    rw [nextLayer_length]; omega
  rw [layersFuel_irrel H f (nextLayer H l).length (nextLayer H l) hnext le_rfl]

theorem buildLayers_ne_nil (H : Bytes → Bytes) (l : List Bytes) :
    buildLayers H l ≠ [] := by
  by_cases h : l.length ≤ 1
  · rw [buildLayers_small H l h]; simp
  · rw [buildLayers_step H l (by omega)]; simp

/-! ## Sorted-pair combination lemmas -/

theorem bufLt_total_eq : ∀ a b : Bytes, bufLt a b = false → bufLt b a = false → a = b
  | [], [], _, _ => rfl
  | [], _ :: _, h, _ => by simp [bufLt] at h
  | _ :: _, [], _, h' => by simp [bufLt] at h'
  | a :: as, b :: bs, h, h' => by
    simp only [bufLt] at h h'
    by_cases hab : a < b
    · simp [hab] at h
    · by_cases hba : b < a
      · simp [hab, hba] at h'
      · have hab' : a = b := Nat.le_antisymm (Nat.not_lt.mp hba) (Nat.not_lt.mp hab)
        subst hab'
        simp only [Nat.lt_irrefl, if_false] at h h'
        rw [bufLt_total_eq as bs h h']

theorem bufLt_asymm : ∀ a b : Bytes, bufLt a b = true → bufLt b a = false
  | [], [], h => by simp [bufLt] at h
  | [], _ :: _, _ => by simp [bufLt]
  | _ :: _, [], h => by simp [bufLt] at h
  | a :: as, b :: bs, h => by
    simp only [bufLt] at h ⊢
    by_cases hab : a < b
    · have hba : ¬ b < a := by omega
      simp [hab, hba]
    · by_cases hba : b < a
      · simp [hab, hba] at h
      · simp only [hab, hba, if_false] at h ⊢
        exact bufLt_asymm as bs h

theorem combine_comm (H : Bytes → Bytes) (a b : Bytes) :
    combine H a b = combine H b a := by
  unfold combine
  cases hab : bufLt a b with
  | true =>
    have hba : bufLt b a = false := bufLt_asymm a b hab
    simp [hba]
  | false =>
    cases hba : bufLt b a with
    | true => simp
    | false =>
      have : a = b := bufLt_total_eq a b hab hba
      subst this
      rfl

/-! ## The parent of a node in the next layer -/

theorem pairIdx_add_two (k : Nat) : pairIdx (k + 2) = pairIdx k + 2 := by
  unfold pairIdx
  rcases Nat.mod_two_eq_zero_or_one k with h | h
  · have h2 : (k + 2) % 2 = 0 := by omega
    simp [h, h2]
  · have h2 : (k + 2) % 2 = 1 := by omega
    simp [h, h2]
    omega

/-- The node at index i of a layer appears in the next layer at index
i / 2: combined with its sibling when one exists (in sorted order, hence
`combine` with the current node first, by commutativity), and promoted
verbatim when the layer ends at an unpaired node. -/
theorem nextLayer_parent (H : Bytes → Bytes) :
    ∀ (l : List Bytes) (i : Nat), i < l.length →
      ((l.get? (pairIdx i) = none → (nextLayer H l).get? (i / 2) = l.get? i) ∧
       (∀ sib, l.get? (pairIdx i) = some sib →
          (nextLayer H l).get? (i / 2) = some (combine H (l.getD i []) sib)))
  | [], i, h => by simp at h
  | [a], 0, _ => by
    refine ⟨fun _ => ?_, fun sib hsib => ?_⟩
    · simp [nextLayer]
    · simp [pairIdx] at hsib
  | [a], i + 1, h => by
    simp at h
  | a :: b :: rest, 0, _ => by
    refine ⟨fun hnone => ?_, fun sib hsib => ?_⟩
    · simp [pairIdx] at hnone
    · have hb : b = sib := by simpa [pairIdx] using hsib
      subst hb
      simp [nextLayer, List.getD]
  | a :: b :: rest, 1, _ => by
    refine ⟨fun hnone => ?_, fun sib hsib => ?_⟩
    · simp [pairIdx] at hnone
    · have ha : a = sib := by simpa [pairIdx] using hsib
      subst ha
      show (combine H a b :: nextLayer H rest).get? 0 = _
      simp [List.getD]
      exact combine_comm H a b
  | a :: b :: rest, k + 2, h => by
    have hk : k < rest.length := by
      simp only [List.length_cons] at h
      omega
    have ih := nextLayer_parent H rest k hk
    have hdiv : (k + 2) / 2 = k / 2 + 1 := by omega
    refine ⟨fun hnone => ?_, fun sib hsib => ?_⟩
    · rw [pairIdx_add_two] at hnone
      rw [List.get?_cons_succ, List.get?_cons_succ] at hnone
      rw [hdiv]
      show (combine H a b :: nextLayer H rest).get? (k / 2 + 1) = _
      rw [List.get?_cons_succ, List.get?_cons_succ, List.get?_cons_succ]
      exact ih.1 hnone
    · rw [pairIdx_add_two] at hsib
      rw [List.get?_cons_succ, List.get?_cons_succ] at hsib
      rw [hdiv]
      show (combine H a b :: nextLayer H rest).get? (k / 2 + 1) = _
      rw [List.get?_cons_succ]
      have := ih.2 sib hsib
      rw [this]
      simp [List.getD]

/-- Helper: an element selected by getLast? is a member. -/
theorem mem_of_getLast?_eq {α : Type} :
    ∀ (l : List α) (a : α), l.getLast? = some a → a ∈ l
  | [], _, h => by simp at h
  | [x], a, h => by
    simp at h
    simp [h]
  | x :: y :: rest, a, h => by
    rw [List.getLast?_cons_cons] at h
    exact List.mem_cons_of_mem x (mem_of_getLast?_eq (y :: rest) a h)

theorem layersRoot_cons (l : List Bytes) (ls : List (List Bytes)) (h : ls ≠ []) :
    layersRoot (l :: ls) = layersRoot ls := by
  unfold layersRoot
  rw [List.getLastD_eq_getLast?, List.getLastD_eq_getLast?]
  cases hl : ls.getLast? with
  | none => exact absurd (List.getLast?_eq_none_iff.mp hl) h
  | some layer =>
    rw [List.getLast?_cons, hl]
    rfl

/-- The central round-trip lemma: folding the sorted-pair combination over
the sibling walk that merkletreejs getProof performs, starting from the
node at any index of the bottom layer, reproduces the root. -/
theorem fold_proofWalk (H : Bytes → Bytes) (l : List Bytes) (i : Nat)
    (h : i < l.length) :
    (proofWalk (buildLayers H l) i).foldl (combine H) (l.getD i []) =
      layersRoot (buildLayers H l) := by
  by_cases hsmall : l.length ≤ 1
  · have hl1 : l.length = 1 := by omega
    obtain ⟨a, ha⟩ : ∃ a, l = [a] := by
      cases l with
      | nil => simp at hl1
      | cons x xs =>
        cases xs with
        | nil => exact ⟨x, rfl⟩
        | cons y ys => simp at hl1
    subst ha
    have hi : i = 0 := by
      simp at h
      exact h
    subst hi
    rw [buildLayers_small H [a] (by simp)]
    simp [proofWalk, pairIdx, layersRoot, List.getD]
  · have h2 : 2 ≤ l.length := by omega
    have hstep := buildLayers_step H l h2
    rw [hstep]
    have hroot : layersRoot (l :: buildLayers H (nextLayer H l)) =
        layersRoot (buildLayers H (nextLayer H l)) :=
      layersRoot_cons l _ (buildLayers_ne_nil H (nextLayer H l))
    rw [hroot]
    have hdivlt : i / 2 < (nextLayer H l).length := by
      rw [nextLayer_length]
      omega
    have hparent := nextLayer_parent H l i h
    show (proofWalk (l :: buildLayers H (nextLayer H l)) i).foldl (combine H) (l.getD i []) = _
    rw [proofWalk]
    cases hpair : l.get? (pairIdx i) with
    | none =>
      have hpromote := hparent.1 hpair
      have hgetd : (nextLayer H l).getD (i / 2) [] = l.getD i [] := by
        rw [List.getD_eq_get?, List.getD_eq_get?, hpromote]
      have := fold_proofWalk H (nextLayer H l) (i / 2) hdivlt
      rw [hgetd] at this
      exact this
    | some sib =>
      have hcomb := hparent.2 sib hpair
      have hgetd : (nextLayer H l).getD (i / 2) [] = combine H (l.getD i []) sib := by
        rw [List.getD_eq_get?, hcomb]
        rfl
      rw [List.foldl_cons]
      have := fold_proofWalk H (nextLayer H l) (i / 2) hdivlt
      rw [hgetd] at this
      exact this
termination_by l.length
decreasing_by
  all_goals
    rw [nextLayer_length]
    omega

/-! ## Last-occurrence index lookup -/

theorem lastIdx_get? (leaf : Bytes) :
    ∀ (l : List Bytes) (j : Nat), lastIdx leaf l = some j → l.get? j = some leaf
  | [], j, h => by simp [lastIdx] at h
  | b :: bs, j, h => by
    simp only [lastIdx] at h
    cases hr : lastIdx leaf bs with
    | some k =>
      rw [hr] at h
      have hj : j = k + 1 := by
        cases h
        rfl
      subst hj
      rw [List.get?_cons_succ]
      exact lastIdx_get? leaf bs k hr
    | none =>
      rw [hr] at h
      by_cases hb : (b == leaf) = true
      · simp only [hb, if_true] at h
        have hj : j = 0 := by
          cases h
          rfl
        subst hj
        simp [beq_iff_eq.mp hb]
      · simp only [Bool.not_eq_true] at hb
        simp [hb] at h

theorem lastIdx_isSome (leaf : Bytes) :
    ∀ (l : List Bytes) (i : Nat), l.get? i = some leaf → (lastIdx leaf l).isSome = true
  | [], i, h => by simp at h
  | b :: bs, i, h => by
    simp only [lastIdx]
    cases hr : lastIdx leaf bs with
    | some k => simp
    | none =>
      cases i with
      | zero =>
        simp at h
        simp [h]
      | succ n =>
        rw [List.get?_cons_succ] at h
        have := lastIdx_isSome leaf bs n h
        rw [hr] at this
        simp at this

/-! ## Well-formed byte sequences and the hex round trip -/

/-- Every entry is a byte value. -/
def ValidBytes (bs : Bytes) : Prop := ∀ b ∈ bs, b < 256

theorem laneBytes_valid (x : Nat) : ValidBytes (laneBytes x) := by
  intro b hb
  simp only [laneBytes, List.mem_map, List.mem_range] at hb
  obtain ⟨k, _, rfl⟩ := hb
  exact Nat.mod_lt _ (by norm_num)

theorem validBytes_append (a b : Bytes) (ha : ValidBytes a) (hb : ValidBytes b) :
    ValidBytes (a ++ b) := by
  intro x hx
  rcases List.mem_append.mp hx with h | h
  · exact ha x h
  · exact hb x h

theorem keccak256_valid (msg : Bytes) : ValidBytes (keccak256 msg) := by
  unfold keccak256
  exact validBytes_append _ _
    (validBytes_append _ _
      (validBytes_append _ _ (laneBytes_valid _) (laneBytes_valid _))
      (laneBytes_valid _))
    (laneBytes_valid _)

theorem hexVal?_hexDigitChar : ∀ n < 16, hexVal? (hexDigitChar n) = some n := by decide

theorem jsHexBytes_roundtrip :
    ∀ bs : Bytes, ValidBytes bs → jsHexBytes ((bs.map byteToHex).foldr (· ++ ·) []) = bs
  | [], _ => rfl
  | b :: rest, h => by
    have hb : b < 256 := h b (by simp)
    have hrest : ValidBytes rest := fun x hx => h x (by simp [hx])
    have hdiv : b / 16 < 16 := by omega
    have hmod : b % 16 < 16 := by omega
    simp only [List.map_cons, List.foldr_cons, byteToHex, List.cons_append, List.nil_append]
    rw [jsHexBytes]
    rw [hexVal?_hexDigitChar (b / 16) hdiv, hexVal?_hexDigitChar (b % 16) hmod]
    show (16 * (b / 16) + b % 16) :: jsHexBytes ((rest.map byteToHex).foldr (· ++ ·) []) = b :: rest
    rw [jsHexBytes_roundtrip rest hrest]
    rw [Nat.div_add_mod b 16]

theorem bytesToHex_data (bs : Bytes) :
    (bytesToHex bs).data = (bs.map byteToHex).foldr (· ++ ·) [] := rfl

theorem jsSliceFrom2_toHex0x (bs : Bytes) :
    jsSliceFrom2 (toHex0x bs) = (bytesToHex bs).data := by
  unfold jsSliceFrom2 toHex0x
  rw [String.data_append]
  rfl

/-- Decoding the wrapper's 0x hex rendering of a well-formed byte string
recovers exactly the bytes. -/
theorem decode_toHex0x (bs : Bytes) (h : ValidBytes bs) :
    jsHexBytes (jsSliceFrom2 (toHex0x bs)) = bs := by
  rw [jsSliceFrom2_toHex0x, bytesToHex_data]
  exact jsHexBytes_roundtrip bs h

/-! ## Validity through the tree pipeline -/

theorem combine_valid (H : Bytes → Bytes) (hH : ∀ x, ValidBytes (H x)) (a b : Bytes) :
    ValidBytes (combine H a b) := hH _

theorem nextLayer_valid (H : Bytes → Bytes) (hH : ∀ x, ValidBytes (H x)) :
    ∀ l : List Bytes, (∀ x ∈ l, ValidBytes x) → ∀ x ∈ nextLayer H l, ValidBytes x
  | [] => by
    intro _ x hx
    simp [nextLayer] at hx
  | [a] => by
    intro h x hx
    simp only [nextLayer, List.mem_singleton] at hx
    subst hx
    exact h x (by simp)
  | a :: b :: rest => by
    intro h x hx
    simp only [nextLayer, List.mem_cons] at hx
    rcases hx with hx | hx
    · subst hx
      exact combine_valid H hH a b
    · exact nextLayer_valid H hH rest (fun y hy => h y (by simp [hy])) x (by
        simpa using hx)

theorem buildLayers_valid (H : Bytes → Bytes) (hH : ∀ x, ValidBytes (H x))
    (l : List Bytes) (hl : ∀ x ∈ l, ValidBytes x) :
    ∀ layer ∈ buildLayers H l, ∀ x ∈ layer, ValidBytes x := by
  by_cases hsmall : l.length ≤ 1
  · rw [buildLayers_small H l hsmall]
    intro layer hlayer
    simp at hlayer
    subst hlayer
    exact hl
  · rw [buildLayers_step H l (by omega)]
    intro layer hlayer
    simp only [List.mem_cons] at hlayer
    rcases hlayer with hlayer | hlayer
    · subst hlayer
      exact hl
    · exact buildLayers_valid H hH (nextLayer H l) (nextLayer_valid H hH l hl) layer hlayer
termination_by l.length
decreasing_by
  rw [nextLayer_length]
  omega

theorem layersRoot_valid (ls : List (List Bytes))
    (h : ∀ layer ∈ ls, ∀ x ∈ layer, ValidBytes x) : ValidBytes (layersRoot ls) := by
  unfold layersRoot
  rw [List.getLastD_eq_getLast?]
  cases hl : ls.getLast? with
  | none =>
    intro b hb
    simp at hb
  | some layer =>
    have hmem : layer ∈ ls := mem_of_getLast?_eq ls layer hl
    cases layer with
    | nil =>
      intro b hb
      simp at hb
    | cons x xs =>
      exact h _ hmem x (by simp)

theorem proofWalk_subset :
    ∀ (ls : List (List Bytes)) (i : Nat) (x : Bytes),
      x ∈ proofWalk ls i → ∃ layer ∈ ls, x ∈ layer
  | [], i, x, hx => by simp [proofWalk] at hx
  | layer :: rest, i, x, hx => by
    rw [proofWalk] at hx
    cases hpair : layer.get? (pairIdx i) with
    | none =>
      rw [hpair] at hx
      obtain ⟨l2, hl2, hxl2⟩ := proofWalk_subset rest (i / 2) x hx
      exact ⟨l2, by simp [hl2], hxl2⟩
    | some sib =>
      rw [hpair] at hx
      rcases List.mem_cons.mp hx with hx | hx
      · subst hx
        exact ⟨layer, by simp, List.get?_mem hpair⟩
      · obtain ⟨l2, hl2, hxl2⟩ := proofWalk_subset rest (i / 2) x hx
        exact ⟨l2, by simp [hl2], hxl2⟩

/-! ## Hashed leaves -/

theorem hashLeaf_ok_shape (enc : List String) (v : List String) (b : Bytes)
    (h : hashLeaf enc v = .ok b) :
    ∃ a, parseAddress (v.getD 0 "") = some a ∧ b = keccak256 (keccak256 (abiEncodeAddress a)) := by
  unfold hashLeaf at h
  by_cases he : enc.contains "address"
  · rw [if_pos he] at h
    cases hp : parseAddress (v.getD 0 "") with
    | none => rw [hp] at h; exact absurd h (by simp)
    | some a =>
      rw [hp] at h
      refine ⟨a, rfl, ?_⟩
      cases h
      rfl
  · rw [if_neg he] at h
    exact absurd h (by simp)

theorem hashLeaf_ok_valid (enc : List String) (v : List String) (b : Bytes)
    (h : hashLeaf enc v = .ok b) : ValidBytes b := by
  obtain ⟨a, _, rfl⟩ := hashLeaf_ok_shape enc v b h
  exact keccak256_valid _

theorem mapLeaves_ok_spec (enc : List String) :
    ∀ (vs : List (List String)) (bs : List Bytes), mapLeaves enc vs = .ok bs →
      bs.length = vs.length ∧
      ∀ i v, vs.get? i = some v → ∃ b, hashLeaf enc v = .ok b ∧ bs.get? i = some b
  | [], bs, h => by
    cases h
    exact ⟨rfl, fun i v hv => by simp at hv⟩
  | v :: vs, bs, h => by
    rw [mapLeaves] at h
    cases hv : hashLeaf enc v with
    | error e => rw [hv] at h; exact absurd h (by simp)
    | ok b =>
      rw [hv] at h
      cases hvs : mapLeaves enc vs with
      | error e => rw [hvs] at h; exact absurd h (by simp)
      | ok rest =>
        rw [hvs] at h
        cases h
        obtain ⟨hlen, hspec⟩ := mapLeaves_ok_spec enc vs rest hvs
        refine ⟨by simp [hlen], fun i w hw => ?_⟩
        cases i with
        | zero =>
          simp at hw
          subst hw
          exact ⟨b, hv, by simp⟩
        | succ n =>
          rw [List.get?_cons_succ] at hw ⊢
          exact hspec n w hw

theorem mapLeaves_ok_valid (enc : List String) :
    ∀ (vs : List (List String)) (bs : List Bytes), mapLeaves enc vs = .ok bs →
      ∀ x ∈ bs, ValidBytes x
  | [], bs, h => by
    cases h
    intro x hx
    simp at hx
  | v :: vs, bs, h => by
    rw [mapLeaves] at h
    cases hv : hashLeaf enc v with
    | error e => rw [hv] at h; exact absurd h (by simp)
    | ok b =>
      rw [hv] at h
      cases hvs : mapLeaves enc vs with
      | error e => rw [hvs] at h; exact absurd h (by simp)
      | ok rest =>
        rw [hvs] at h
        cases h
        intro x hx
        rcases List.mem_cons.mp hx with hx | hx
        · subst hx
          exact hashLeaf_ok_valid enc v x hv
        · exact mapLeaves_ok_valid enc vs rest hvs x hx

/-! ## findIdx? miss -/

theorem findIdx?_eq_none (p : List String → Bool) :
    ∀ (l : List (List String)) (i : Nat), (∀ x ∈ l, p x = false) → l.findIdx? p i = none
  | [], _, _ => rfl
  | x :: xs, i, h => by
    rw [List.findIdx?_cons]
    rw [h x (by simp)]
    simp only [Bool.false_eq_true, if_false]
    exact findIdx?_eq_none p xs (i + 1) (fun y hy => h y (by simp [hy]))

/-! ## Correctness of getProof against the root, at the byte level -/

theorem mt_getProof_fold (H : Bytes → Bytes) (leaves : List Bytes) (i : Nat) (leaf : Bytes)
    (hget : leaves.get? i = some leaf) :
    ((MerkleTreeJS.ofLeaves H leaves).getProof leaf).foldl (combine H) leaf =
      (MerkleTreeJS.ofLeaves H leaves).getRoot := by
  unfold MerkleTreeJS.ofLeaves MerkleTreeJS.getProof MerkleTreeJS.getRoot
  simp only
  have hsome := lastIdx_isSome leaf leaves i hget
  cases hl : lastIdx leaf leaves with
  | none =>
    rw [hl] at hsome
    simp at hsome
  | some j =>
    have hj : leaves.get? j = some leaf := lastIdx_get? leaf leaves j hl
    have hjlt : j < leaves.length := (List.get?_eq_some.mp hj).1
    have hfold := fold_proofWalk H leaves j hjlt
    have hgetd : leaves.getD j [] = leaf := by
      rw [List.getD_eq_get?, hj]
      rfl
    rw [hgetd] at hfold
    exact hfold

theorem mt_getProof_valid (H : Bytes → Bytes) (hH : ∀ x, ValidBytes (H x))
    (leaves : List Bytes) (hlv : ∀ x ∈ leaves, ValidBytes x) (leaf : Bytes) :
    ∀ p ∈ (MerkleTreeJS.ofLeaves H leaves).getProof leaf, ValidBytes p := by
  intro p hp
  unfold MerkleTreeJS.getProof MerkleTreeJS.ofLeaves at hp
  simp only at hp
  cases hl : lastIdx leaf leaves with
  | none =>
    rw [hl] at hp
    simp at hp
  | some j =>
    rw [hl] at hp
    obtain ⟨layer, hlayer, hplayer⟩ := proofWalk_subset _ j p hp
    exact buildLayers_valid H hH leaves hlv layer hlayer p hplayer

theorem mt_getRoot_valid (H : Bytes → Bytes) (hH : ∀ x, ValidBytes (H x))
    (leaves : List Bytes) (hlv : ∀ x ∈ leaves, ValidBytes x) :
    ValidBytes (MerkleTreeJS.ofLeaves H leaves).getRoot :=
  layersRoot_valid _ (buildLayers_valid H hH leaves hlv)

/-- Rendering a list of well-formed digests as 0x hex strings and decoding
them back (as CustomMerkleTree.verify does) is the identity. -/
theorem decode_map_toHex0x :
    ∀ ps : List Bytes, (∀ p ∈ ps, ValidBytes p) →
      (ps.map toHex0x).map (fun p => jsHexBytes (jsSliceFrom2 p)) = ps
  | [], _ => rfl
  | p :: ps, h => by
    simp only [List.map_cons]
    rw [decode_toHex0x p (h p (by simp)),
      decode_map_toHex0x ps (fun q hq => h q (by simp [hq]))]

/-! ## Destructuring helpers for built trees -/

theorem buildMerkleTree_ok_parts (L : List String) (t : CustomMerkleTree)
    (h : buildMerkleTree L = .ok t) :
    ∃ leaves, mapLeaves ["address"] (wrapAddresses L) = .ok leaves ∧
      t = ⟨wrapAddresses L, ["address"], leaves,
        MerkleTreeJS.ofLeaves keccak256 leaves, true⟩ := by
  simp only [buildMerkleTree] at h
  cases hml : mapLeaves ["address"] (wrapAddresses L) with
  | error e =>
    rw [hml] at h
    exact absurd h (by simp)
  | ok leaves =>
    rw [hml] at h
    simp only at h
    injection h with h
    exact ⟨leaves, rfl, h.symm⟩

theorem buildMerkleTree_initialized (L : List String) (t : CustomMerkleTree)
    (h : buildMerkleTree L = .ok t) : t.initialized = true := by
  obtain ⟨leaves, _, ht⟩ := buildMerkleTree_ok_parts L t h
  rw [ht]

theorem mapLeaves_nil_ok (enc : List String) (bs : List Bytes)
    (h : mapLeaves enc [] = .ok bs) : bs = [] := by
  cases h
  rfl

theorem mapLeaves_cons_ok (enc : List String) (v : List String) (vs : List (List String))
    (bs : List Bytes) (h : mapLeaves enc (v :: vs) = .ok bs) :
    ∃ b rest, hashLeaf enc v = .ok b ∧ mapLeaves enc vs = .ok rest ∧ bs = b :: rest := by
  rw [mapLeaves] at h
  cases hv : hashLeaf enc v with
  | error e =>
    rw [hv] at h
    exact absurd h (by simp)
  | ok b =>
    rw [hv] at h
    cases hvs : mapLeaves enc vs with
    | error e =>
      rw [hvs] at h
      exact absurd h (by simp)
    | ok rest =>
      rw [hvs] at h
      cases h
      exact ⟨b, rest, rfl, rfl, rfl⟩

theorem buildLayers_pair (H : Bytes → Bytes) (a b : Bytes) :
    buildLayers H [a, b] = [[a, b], [combine H a b]] := by
  rw [buildLayers_step H [a, b] (by simp)]
  have h1 : nextLayer H [a, b] = [combine H a b] := by simp [nextLayer]
  rw [h1, buildLayers_small H [combine H a b] (by simp)]

theorem buildLayers_triple (H : Bytes → Bytes) (a b c : Bytes) :
    buildLayers H [a, b, c] =
      [[a, b, c], [combine H a b, c], [combine H (combine H a b) c]] := by
  rw [buildLayers_step H [a, b, c] (by simp)]
  have h1 : nextLayer H [a, b, c] = [combine H a b, c] := by simp [nextLayer]
  rw [h1, buildLayers_pair]

/-- Promotion of an unpaired trailing node: appending one node to an
even-length layer carries it into the next layer unchanged. -/
theorem nextLayer_snoc_even (H : Bytes → Bytes) :
    ∀ l : List Bytes, l.length % 2 = 0 → ∀ x : Bytes,
      nextLayer H (l ++ [x]) = nextLayer H l ++ [x]
  | [], _, x => rfl
  | [_], h, x => by simp at h
  | a :: b :: rest, h, x => by
    have hrest : rest.length % 2 = 0 := by
      simp only [List.length_cons] at h
      omega
    simp only [List.cons_append, nextLayer]
    rw [show rest.append [x] = rest ++ [x] from rfl]
    rw [nextLayer_snoc_even H rest hrest x]

/-- The spec's byte-wise lexicographic minimum of two digests. -/
def bufMin (a b : Bytes) : Bytes := if bufLt b a then b else a

/-- The spec's byte-wise lexicographic maximum of two digests. -/
def bufMax (a b : Bytes) : Bytes := if bufLt b a then a else b

/-- The sorted-pair combination of the code equals the min/max description
of the spec. -/
theorem combine_eq_minmax (H : Bytes → Bytes) (a b : Bytes) :
    combine H a b = H (bufMin a b ++ bufMax a b) := by
  unfold combine bufMin bufMax
  cases hab : bufLt a b with
  | true =>
    have hba : bufLt b a = false := bufLt_asymm a b hab
    simp [hba]
  | false =>
    cases hba : bufLt b a with
    | true => simp
    | false =>
      have : a = b := bufLt_total_eq a b hab hba
      subst this
      simp

/-! ## Claim theorems -/

/-- C1: Round-trip.  For every non-empty ordered allowlist L and every
address a occurring in L (at any position i), building the tree with
buildMerkleTree, generating the proof for position i with getProof, and
verifying that proof against the tree's root with a's leaf digest returns
true. -/
theorem c1_round_trip (L : List String) (t : CustomMerkleTree) (a : String) (i : Nat)
    (hbuild : buildMerkleTree L = .ok t) (ha : L.get? i = some a) :
    ∃ (lb : Bytes) (prf : List String) (r : String),
      hashLeaf ["address"] [a] = .ok lb ∧
      t.getProof (i : Int) = .ok prf ∧
      t.root = some r ∧
      t.verify prf r (toHex0x lb) = true := by
  simp only [buildMerkleTree] at hbuild
  cases hml : mapLeaves ["address"] (wrapAddresses L) with
  | error e =>
    rw [hml] at hbuild
    exact absurd hbuild (by simp)
  | ok leaves =>
    rw [hml] at hbuild
    simp only at hbuild
    injection hbuild with ht
    subst ht
    have hwrap : (wrapAddresses L).get? i = some [a] := by
      unfold wrapAddresses
      rw [List.get?_map, ha]
      rfl
    obtain ⟨hlen, hspec⟩ := mapLeaves_ok_spec ["address"] (wrapAddresses L) leaves hml
    obtain ⟨lb, hlb, hleavesi⟩ := hspec i [a] hwrap
    have hilt : i < leaves.length := (List.get?_eq_some.mp hleavesi).1
    have hLlen : i < L.length := (List.get?_eq_some.mp ha).1
    have hlv := mapLeaves_ok_valid ["address"] (wrapAddresses L) leaves hml
    have hgetd : leaves.getD ((i : Int)).toNat [] = lb := by
      simp only [Int.toNat_natCast]
      rw [List.getD_eq_get?, hleavesi]
      rfl
    refine ⟨lb, ((MerkleTreeJS.ofLeaves keccak256 leaves).getProof lb).map toHex0x,
      toHex0x (MerkleTreeJS.ofLeaves keccak256 leaves).getRoot, hlb, ?_, ?_, ?_⟩
    · -- getProof succeeds and returns the rendered byte-level proof
      unfold CustomMerkleTree.getProof
      have hcond : ¬(((i : Int) < 0) ∨ ((List.length (wrapAddresses L) : Int) ≤ (i : Int))) := by
        unfold wrapAddresses
        rw [List.length_map]
        omega
      rw [if_neg (by simp), if_neg hcond]
      rw [hgetd]
    · -- the root getter
      unfold CustomMerkleTree.root
      rw [if_pos rfl]
    · -- verification round trip
      unfold CustomMerkleTree.verify
      rw [if_neg (by simp)]
      have hproofvalid := mt_getProof_valid keccak256 keccak256_valid leaves hlv lb
      have hleafvalid : ValidBytes lb := hashLeaf_ok_valid ["address"] [a] lb hlb
      have hrootvalid : ValidBytes (MerkleTreeJS.ofLeaves keccak256 leaves).getRoot :=
        mt_getRoot_valid keccak256 keccak256_valid leaves hlv
      rw [List.map_map]
      have hdecodeproof :
          ((MerkleTreeJS.ofLeaves keccak256 leaves).getProof lb).map
              ((fun p => jsHexBytes (jsSliceFrom2 p)) ∘ toHex0x) =
            (MerkleTreeJS.ofLeaves keccak256 leaves).getProof lb := by
      -- map of the composition equals the identity on valid digests
        have := decode_map_toHex0x ((MerkleTreeJS.ofLeaves keccak256 leaves).getProof lb)
          hproofvalid
        rw [← List.map_map] at *
        exact this
      rw [hdecodeproof, decode_toHex0x lb hleafvalid,
        decode_toHex0x _ hrootvalid]
      show (List.foldl (fun h p => combine keccak256 h p) lb
          ((MerkleTreeJS.ofLeaves keccak256 leaves).getProof lb) ==
          (MerkleTreeJS.ofLeaves keccak256 leaves).getRoot) = true
      rw [beq_iff_eq]
      exact mt_getProof_fold keccak256 leaves i lb hleavesi

/-- Witness for C1 at the concrete two-address allowlist of the spec
example, position 1. -/
theorem c1_round_trip_witness :
    ∃ t, buildMerkleTree [addrA, addrB] = .ok t ∧
      ∃ (lb : Bytes) (prf : List String) (r : String),
        hashLeaf ["address"] [addrB] = .ok lb ∧
        t.getProof (1 : Int) = .ok prf ∧
        t.root = some r ∧
        t.verify prf r (toHex0x lb) = true := by
  obtain ⟨t, ht⟩ : ∃ t, buildMerkleTree [addrA, addrB] = .ok t := by
    cases hb : buildMerkleTree [addrA, addrB] with
    | ok t => exact ⟨t, rfl⟩
    | error e =>
      have hsome : (buildMerkleTree [addrA, addrB]).toOption.isSome = true := by decide
      rw [hb] at hsome
      simp [Except.toOption] at hsome
  have h1 : [addrA, addrB].get? 1 = some addrB := rfl
  exact ⟨t, ht, by
    have := c1_round_trip [addrA, addrB] t addrB 1 ht h1
    simpa using this⟩

/-- C3: Odd-layer promotion.  An unpaired trailing node of an odd-length
layer is carried into the next layer unchanged (never hashed with a
duplicate of itself); and for a 3-address list the built tree combines the
first two leaves, promotes the third verbatim, and the root is the
sorted-pair hash of H(A,B) with C's leaf. -/
theorem c3_odd_promotion (H : Bytes → Bytes) (l : List Bytes) (x : Bytes)
    (heven : l.length % 2 = 0) :
    nextLayer H (l ++ [x]) = nextLayer H l ++ [x] ∧
    (∀ a b c : Bytes, buildLayers H [a, b, c] =
      [[a, b, c], [combine H a b, c], [combine H (combine H a b) c]]) ∧
    (∀ (s1 s2 s3 : String) (t : CustomMerkleTree),
      buildMerkleTree [s1, s2, s3] = .ok t →
      ∃ l1 l2 l3, hashLeaf ["address"] [s1] = .ok l1 ∧
        hashLeaf ["address"] [s2] = .ok l2 ∧
        hashLeaf ["address"] [s3] = .ok l3 ∧
        t.leaves = [l1, l2, l3] ∧
        t.tree.layers =
          [[l1, l2, l3], [combine keccak256 l1 l2, l3],
           [combine keccak256 (combine keccak256 l1 l2) l3]] ∧
        t.root = some (toHex0x (combine keccak256 (combine keccak256 l1 l2) l3))) := by
  refine ⟨nextLayer_snoc_even H l heven x, buildLayers_triple H, ?_⟩
  intro s1 s2 s3 t hbuild
  obtain ⟨leaves, hml, ht⟩ := buildMerkleTree_ok_parts [s1, s2, s3] t hbuild
  obtain ⟨l1, rest1, h1, hml1, hbs⟩ := mapLeaves_cons_ok _ _ _ _ hml
  obtain ⟨l2, rest2, h2, hml2, hbs2⟩ := mapLeaves_cons_ok _ _ _ _ hml1
  obtain ⟨l3, rest3, h3, hml3, hbs3⟩ := mapLeaves_cons_ok _ _ _ _ hml2
  have hnil := mapLeaves_nil_ok _ _ hml3
  subst hnil hbs3 hbs2 hbs
  subst ht
  refine ⟨l1, l2, l3, h1, h2, h3, rfl, ?_, ?_⟩
  · show buildLayers keccak256 [l1, l2, l3] = _
    exact buildLayers_triple keccak256 l1 l2 l3
  · unfold CustomMerkleTree.root
    rw [if_pos rfl]
    show some (toHex0x (layersRoot (buildLayers keccak256 [l1, l2, l3]))) = _
    rw [buildLayers_triple keccak256 l1 l2 l3]
    rfl

/-- Witness for C3: the empty even layer with one promoted node, and the
generic parts instantiated at keccak256. -/
theorem c3_odd_promotion_witness :
    ([] : List Bytes).length % 2 = 0 ∧
    (nextLayer keccak256 ([] ++ [[0]]) = nextLayer keccak256 [] ++ [[0]] ∧
     (∀ a b c : Bytes, buildLayers keccak256 [a, b, c] =
       [[a, b, c], [combine keccak256 a b, c],
        [combine keccak256 (combine keccak256 a b) c]]) ∧
     (∀ (s1 s2 s3 : String) (t : CustomMerkleTree),
       buildMerkleTree [s1, s2, s3] = .ok t →
       ∃ l1 l2 l3, hashLeaf ["address"] [s1] = .ok l1 ∧
         hashLeaf ["address"] [s2] = .ok l2 ∧
         hashLeaf ["address"] [s3] = .ok l3 ∧
         t.leaves = [l1, l2, l3] ∧
         t.tree.layers =
           [[l1, l2, l3], [combine keccak256 l1 l2, l3],
            [combine keccak256 (combine keccak256 l1 l2) l3]] ∧
         t.root = some (toHex0x (combine keccak256 (combine keccak256 l1 l2) l3)))) :=
  ⟨rfl, c3_odd_promotion keccak256 [] [0] rfl⟩

/-- C4: Sorted-pair combination.  Every combination during build or
verification hashes min ++ max under byte-wise lexicographic comparison;
for a 2-address list the root is H(min(l1,l2) ++ max(l1,l2)), the proof
for the first address is exactly [l2], and verification succeeds. -/
theorem c4_sorted_pair (H : Bytes → Bytes) (a b : Bytes) (s1 s2 : String)
    (t : CustomMerkleTree) (hbuild : buildMerkleTree [s1, s2] = .ok t) :
    combine H a b = H (bufMin a b ++ bufMax a b) ∧
    ∃ l1 l2, hashLeaf ["address"] [s1] = .ok l1 ∧ hashLeaf ["address"] [s2] = .ok l2 ∧
      t.root = some (toHex0x (keccak256 (bufMin l1 l2 ++ bufMax l1 l2))) ∧
      t.getProof (0 : Int) = .ok [toHex0x l2] ∧
      t.verify [toHex0x l2] (toHex0x (keccak256 (bufMin l1 l2 ++ bufMax l1 l2)))
        (toHex0x l1) = true := by
  refine ⟨combine_eq_minmax H a b, ?_⟩
  obtain ⟨leaves, hml, ht⟩ := buildMerkleTree_ok_parts [s1, s2] t hbuild
  obtain ⟨l1, rest1, h1, hml1, hbs⟩ := mapLeaves_cons_ok _ _ _ _ hml
  obtain ⟨l2, rest2, h2, hml2, hbs2⟩ := mapLeaves_cons_ok _ _ _ _ hml1
  have hnil := mapLeaves_nil_ok _ _ hml2
  subst hnil hbs2 hbs
  subst ht
  have hv1 : ValidBytes l1 := hashLeaf_ok_valid _ _ _ h1
  have hv2 : ValidBytes l2 := hashLeaf_ok_valid _ _ _ h2
  have hcombv : ValidBytes (combine keccak256 l1 l2) := keccak256_valid _
  have hproof : (MerkleTreeJS.ofLeaves keccak256 [l1, l2]).getProof l1 = [l2] := by
    unfold MerkleTreeJS.ofLeaves MerkleTreeJS.getProof
    simp only
    rw [buildLayers_pair]
    cases h21 : l2 == l1 with
    | true =>
      have hl : l2 = l1 := beq_iff_eq.mp h21
      subst hl
      simp [lastIdx, proofWalk, pairIdx]
    | false =>
      simp [lastIdx, h21, proofWalk, pairIdx]
  have hrooteq : (MerkleTreeJS.ofLeaves keccak256 [l1, l2]).getRoot =
      keccak256 (bufMin l1 l2 ++ bufMax l1 l2) := by
    unfold MerkleTreeJS.ofLeaves MerkleTreeJS.getRoot
    simp only
    rw [buildLayers_pair]
    show combine keccak256 l1 l2 = _
    exact combine_eq_minmax keccak256 l1 l2
  refine ⟨l1, l2, h1, h2, ?_, ?_, ?_⟩
  · unfold CustomMerkleTree.root
    rw [if_pos rfl]
    show some (toHex0x (MerkleTreeJS.ofLeaves keccak256 [l1, l2]).getRoot) = _
    rw [hrooteq]
  · unfold CustomMerkleTree.getProof
    rw [if_neg (by simp), if_neg (by simp [wrapAddresses])]
    show Except.ok (((MerkleTreeJS.ofLeaves keccak256 [l1, l2]).getProof l1).map toHex0x) = _
    rw [hproof]
    rfl
  · unfold CustomMerkleTree.verify
    rw [if_neg (by simp)]
    show ((MerkleTreeJS.ofLeaves keccak256 [l1, l2]).verify keccak256
      ([toHex0x l2].map (fun p => jsHexBytes (jsSliceFrom2 p)))
      (jsHexBytes (jsSliceFrom2 (toHex0x l1)))
      (jsHexBytes (jsSliceFrom2 (toHex0x (keccak256 (bufMin l1 l2 ++ bufMax l1 l2)))))) = true
    rw [show ([toHex0x l2].map (fun p => jsHexBytes (jsSliceFrom2 p))) =
      [jsHexBytes (jsSliceFrom2 (toHex0x l2))] from rfl]
    rw [decode_toHex0x l1 hv1, decode_toHex0x l2 hv2,
      decode_toHex0x _ (keccak256_valid _)]
    unfold MerkleTreeJS.verify
    rw [beq_iff_eq]
    show combine keccak256 l1 l2 = _
    exact combine_eq_minmax keccak256 l1 l2

/-- Witness for C4 at the spec's example allowlist. -/
theorem c4_sorted_pair_witness :
    ∃ t, buildMerkleTree [addrA, addrB] = .ok t ∧
      (combine keccak256 [1] [2] = keccak256 (bufMin [1] [2] ++ bufMax [1] [2]) ∧
       ∃ l1 l2, hashLeaf ["address"] [addrA] = .ok l1 ∧
         hashLeaf ["address"] [addrB] = .ok l2 ∧
         t.root = some (toHex0x (keccak256 (bufMin l1 l2 ++ bufMax l1 l2))) ∧
         t.getProof (0 : Int) = .ok [toHex0x l2] ∧
         t.verify [toHex0x l2] (toHex0x (keccak256 (bufMin l1 l2 ++ bufMax l1 l2)))
           (toHex0x l1) = true) := by
  obtain ⟨t, ht⟩ : ∃ t, buildMerkleTree [addrA, addrB] = .ok t := by
    cases hb : buildMerkleTree [addrA, addrB] with
    | ok t => exact ⟨t, rfl⟩
    | error e =>
      have hsome : (buildMerkleTree [addrA, addrB]).toOption.isSome = true := by decide
      rw [hb] at hsome
      simp [Except.toOption] at hsome
  exact ⟨t, ht, c4_sorted_pair keccak256 [1] [2] addrA addrB t ht⟩

/-- C5: Verification totality and the singleton case.  verify computes a
pure fold-and-compare Bool on every input (malformed proofs included,
never an exception); a 1-address tree has the leaf itself as root, an
empty proof, and verify(leaf, [], root) checks leaf == root. -/
theorem c5_verify_total_singleton (s : String) (t : CustomMerkleTree)
    (hbuild : buildMerkleTree [s] = .ok t) :
    ∃ lb, hashLeaf ["address"] [s] = .ok lb ∧
      t.root = some (toHex0x lb) ∧
      t.getProof (0 : Int) = .ok [] ∧
      t.verify [] (toHex0x lb) (toHex0x lb) = true ∧
      (∀ (proof : List String) (root leaf : String),
        t.verify proof root leaf =
          ((proof.map (fun p => jsHexBytes (jsSliceFrom2 p))).foldl
              (fun h p => combine keccak256 h p) (jsHexBytes (jsSliceFrom2 leaf)) ==
            jsHexBytes (jsSliceFrom2 root))) ∧
      (∀ root leaf : String,
        t.verify [] root leaf =
          (jsHexBytes (jsSliceFrom2 leaf) == jsHexBytes (jsSliceFrom2 root))) := by
  obtain ⟨leaves, hml, ht⟩ := buildMerkleTree_ok_parts [s] t hbuild
  obtain ⟨lb, rest1, h1, hml1, hbs⟩ := mapLeaves_cons_ok _ _ _ _ hml
  have hnil := mapLeaves_nil_ok _ _ hml1
  subst hnil hbs
  subst ht
  have hvb : ValidBytes lb := hashLeaf_ok_valid _ _ _ h1
  have hlayers : buildLayers keccak256 [lb] = [[lb]] :=
    buildLayers_small keccak256 [lb] (by simp)
  have hroot : (MerkleTreeJS.ofLeaves keccak256 [lb]).getRoot = lb := by
    unfold MerkleTreeJS.ofLeaves MerkleTreeJS.getRoot
    simp only
    rw [hlayers]
    rfl
  have hverify : ∀ (proof : List String) (root leaf : String),
      CustomMerkleTree.verify
        ⟨wrapAddresses [s], ["address"], [lb], MerkleTreeJS.ofLeaves keccak256 [lb], true⟩
        proof root leaf =
        ((proof.map (fun p => jsHexBytes (jsSliceFrom2 p))).foldl
            (fun h p => combine keccak256 h p) (jsHexBytes (jsSliceFrom2 leaf)) ==
          jsHexBytes (jsSliceFrom2 root)) := by
    intro proof root leaf
    unfold CustomMerkleTree.verify
    rw [if_neg (by simp)]
    rfl
  refine ⟨lb, h1, ?_, ?_, ?_, hverify, ?_⟩
  · unfold CustomMerkleTree.root
    rw [if_pos rfl]
    show some (toHex0x (MerkleTreeJS.ofLeaves keccak256 [lb]).getRoot) = _
    rw [hroot]
  · unfold CustomMerkleTree.getProof
    rw [if_neg (by simp), if_neg (by simp [wrapAddresses])]
    show Except.ok (((MerkleTreeJS.ofLeaves keccak256 [lb]).getProof lb).map toHex0x) = _
    unfold MerkleTreeJS.ofLeaves MerkleTreeJS.getProof
    simp only
    rw [hlayers]
    show Except.ok ((match lastIdx lb [lb] with
      | none => []
      | some i => proofWalk [[lb]] i).map toHex0x) = _
    unfold lastIdx
    simp only [beq_self_eq_true]
    show Except.ok ((proofWalk [[lb]] 0).map toHex0x) = _
    simp [proofWalk, pairIdx]
  · rw [hverify [] (toHex0x lb) (toHex0x lb)]
    rw [decode_toHex0x lb hvb]
    simp
  · intro root leaf
    rw [hverify [] root leaf]
    rfl

/-- Witness for C5 at a concrete one-address allowlist. -/
theorem c5_verify_total_singleton_witness :
    ∃ t, buildMerkleTree [addrA] = .ok t ∧
      ∃ lb, hashLeaf ["address"] [addrA] = .ok lb ∧
        t.root = some (toHex0x lb) ∧
        t.getProof (0 : Int) = .ok [] ∧
        t.verify [] (toHex0x lb) (toHex0x lb) = true ∧
        (∀ (proof : List String) (root leaf : String),
          t.verify proof root leaf =
            ((proof.map (fun p => jsHexBytes (jsSliceFrom2 p))).foldl
                (fun h p => combine keccak256 h p) (jsHexBytes (jsSliceFrom2 leaf)) ==
              jsHexBytes (jsSliceFrom2 root))) ∧
        (∀ root leaf : String,
          t.verify [] root leaf =
            (jsHexBytes (jsSliceFrom2 leaf) == jsHexBytes (jsSliceFrom2 root))) := by
  obtain ⟨t, ht⟩ : ∃ t, buildMerkleTree [addrA] = .ok t := by
    cases hb : buildMerkleTree [addrA] with
    | ok t => exact ⟨t, rfl⟩
    | error e =>
      have hsome : (buildMerkleTree [addrA]).toOption.isSome = true := by decide
      rw [hb] at hsome
      simp [Except.toOption] at hsome
  exact ⟨t, ht, c5_verify_total_singleton addrA t ht⟩

/-- The thrown message of an error result (none for success); used to
state error-path results. -/
def errMsg? : Except String (List String) → Option String
  | .error e => some e
  | .ok _ => none

/-- Looking up a proof for an address that is not in the allowlist: the
JavaScript findIndex yields -1 and getProof throws its bounds error. -/
theorem getMerkleProof_absent (t : CustomMerkleTree) (addr : String)
    (L : List String) (hinit : t.initialized = true) (habs : addr ∉ L) :
    getMerkleProof t addr L = .error "Index out of bounds" := by
  unfold getMerkleProof
  have hfind : (wrapAddresses L).findIdx? (fun w => w.getD 0 "" == addr) 0 = none := by
    apply findIdx?_eq_none
    intro w hw
    unfold wrapAddresses at hw
    obtain ⟨a, ha, rfl⟩ := List.mem_map.mp hw
    have hne : a ≠ addr := fun h => habs (h ▸ ha)
    simpa using hne
  rw [hfind]
  unfold CustomMerkleTree.getProof
  rw [hinit]
  rw [if_neg (by simp)]
  rw [if_pos (by norm_num)]

/-- C6 counterexample: building a tree from the empty address sequence
does NOT fail — it succeeds, fully initialized, with layers [[]] and the
degenerate root string 0x (no EmptyInputError exists in the code). -/
theorem c6_counterexample :
    buildMerkleTree [] =
      .ok ⟨[], ["address"], [], MerkleTreeJS.ofLeaves keccak256 [], true⟩ ∧
    (MerkleTreeJS.ofLeaves keccak256 []).layers = [[]] ∧
    CustomMerkleTree.root
      ⟨[], ["address"], [], MerkleTreeJS.ofLeaves keccak256 [], true⟩ = some "0x" :=
  ⟨rfl, rfl, by decide⟩

/-- C6 as amended: the empty build raises nothing and produces an
initialized tree whose root renders as "0x" (the empty digest, not a
usable 32-byte root), and every getProof index is rejected as out of
bounds. -/
theorem c6_empty_build (i : Int) :
    buildMerkleTree [] =
      .ok ⟨[], ["address"], [], MerkleTreeJS.ofLeaves keccak256 [], true⟩ ∧
    CustomMerkleTree.root
      ⟨[], ["address"], [], MerkleTreeJS.ofLeaves keccak256 [], true⟩ = some "0x" ∧
    CustomMerkleTree.getProof
      ⟨[], ["address"], [], MerkleTreeJS.ofLeaves keccak256 [], true⟩ i =
      .error "Index out of bounds" := by
  refine ⟨rfl, by decide, ?_⟩
  unfold CustomMerkleTree.getProof
  rw [if_neg (by simp)]
  rw [if_pos (by simp; omega)]

/-- C7 counterexample: at a concrete two-address tree, requesting a proof
for an absent address and requesting one for an out-of-range index throw
the very same "Index out of bounds" error — there is no AddressNotFound
error and the two failures are not distinguishable. -/
theorem c7_counterexample :
    (buildMerkleTree [addrA, addrB]).toOption.map (fun t =>
      (errMsg? (getMerkleProof t addrC [addrA, addrB]),
       errMsg? (t.getProof 99))) =
      some (some "Index out of bounds", some "Index out of bounds") := by decide

/-- C7 as amended: an address absent from the allowlist makes
getMerkleProof throw exactly the "Index out of bounds" error that an
out-of-range index produces (findIndex returns -1); the two failure modes
carry the same error and are not distinguishable by the caller. -/
theorem c7_absent_same_error (t : CustomMerkleTree) (addr : String)
    (L : List String) (hinit : t.initialized = true) (habs : addr ∉ L) :
    getMerkleProof t addr L = .error "Index out of bounds" ∧
    ∀ i : Int, (t.values.length : Int) ≤ i →
      t.getProof i = .error "Index out of bounds" := by
  refine ⟨getMerkleProof_absent t addr L hinit habs, fun i hi => ?_⟩
  unfold CustomMerkleTree.getProof
  rw [hinit]
  rw [if_neg (by simp)]
  rw [if_pos (Or.inr hi)]

/-- Witness for C7 at a concrete tree and absent address. -/
theorem c7_absent_same_error_witness :
    ∃ t, buildMerkleTree [addrA, addrB] = .ok t ∧
      (getMerkleProof t addrC [addrA, addrB] = .error "Index out of bounds" ∧
       ∀ i : Int, (t.values.length : Int) ≤ i →
         t.getProof i = .error "Index out of bounds") := by
  obtain ⟨t, ht⟩ : ∃ t, buildMerkleTree [addrA, addrB] = .ok t := by
    cases hb : buildMerkleTree [addrA, addrB] with
    | ok t => exact ⟨t, rfl⟩
    | error e =>
      have hsome : (buildMerkleTree [addrA, addrB]).toOption.isSome = true := by decide
      rw [hb] at hsome
      simp [Except.toOption] at hsome
  exact ⟨t, ht, c7_absent_same_error t addrC [addrA, addrB]
    (buildMerkleTree_initialized _ t ht) (by decide)⟩

/-- C9 counterexample: the upper-case rendering of an allowlisted address
hashes to the same leaf (the coder parses hex case-insensitively), but
getMerkleProof finds no proof for it — findIndex compares the raw strings
with strict equality, so the differently-cased caller gets the
"Index out of bounds" error while the stored casing gets a proof. -/
theorem c9_counterexample :
    hashLeaf ["address"] [addrAUpper] = hashLeaf ["address"] [addrA] ∧
    (buildMerkleTree [addrA]).toOption.map (fun t =>
      (errMsg? (getMerkleProof t addrAUpper [addrA]),
       (getMerkleProof t addrA [addrA]).toOption)) =
      some (some "Index out of bounds", some []) := by
  constructor
  · have hp : parseAddress addrAUpper = parseAddress addrA := by decide
    unfold hashLeaf
    rw [show ([addrAUpper].getD 0 "") = addrAUpper from rfl,
      show ([addrA].getD 0 "") = addrA from rfl, hp]
  · decide

/-- C9 as amended: leaf hashing is case-insensitive (equal parses give
equal leaves), but proof lookup matches the supplied string exactly: a
representation that differs from the stored one (e.g. in hex letter case)
is not found and getMerkleProof throws "Index out of bounds" instead of
returning the proof. -/
theorem c9_case_normalization (s1 s2 : String) (L : List String)
    (t : CustomMerkleTree) (hp : parseAddress s1 = parseAddress s2)
    (hinit : t.initialized = true) (habs : s2 ∉ L) :
    hashLeaf ["address"] [s2] = hashLeaf ["address"] [s1] ∧
    getMerkleProof t s2 L = .error "Index out of bounds" := by
  constructor
  · unfold hashLeaf
    rw [show ([s2].getD 0 "") = s2 from rfl, show ([s1].getD 0 "") = s1 from rfl, hp]
  · exact getMerkleProof_absent t s2 L hinit habs

/-- Witness for C9: lower- and upper-case renderings of the same address
against a concrete one-address tree. -/
theorem c9_case_normalization_witness :
    ∃ t, buildMerkleTree [addrA] = .ok t ∧
      (hashLeaf ["address"] [addrAUpper] = hashLeaf ["address"] [addrA] ∧
       getMerkleProof t addrAUpper [addrA] = .error "Index out of bounds") := by
  obtain ⟨t, ht⟩ : ∃ t, buildMerkleTree [addrA] = .ok t := by
    cases hb : buildMerkleTree [addrA] with
    | ok t => exact ⟨t, rfl⟩
    | error e =>
      have hsome : (buildMerkleTree [addrA]).toOption.isSome = true := by decide
      rw [hb] at hsome
      simp [Except.toOption] at hsome
  exact ⟨t, ht, c9_case_normalization addrA addrAUpper [addrA] t (by decide)
    (buildMerkleTree_initialized _ t ht) (by decide)⟩

/-- C2: External-verifier compatibility FAILS.  At the concrete allowlist
[addrA, addrB], the proof generated for addrB is accepted by the in-repo
verifier (CustomMerkleTree.verify, leaf = keccak256(keccak256(abi.encode
address))), but rejected by the on-chain NFT.isAddressAllowed (leaf =
keccak256(abi.encodePacked(address)), a single hash of the 20 raw bytes):
the two sides disagree on acceptance. -/
theorem c2_external_verifier_mismatch :
    (buildMerkleTree [addrA, addrB]).toOption.map (fun t =>
      match getMerkleProof t addrB [addrA, addrB], hashLeaf ["address"] [addrB],
          t.root, parseAddress addrB with
      | .ok prf, .ok lb, some r, some ab =>
        some (t.verify prf r (toHex0x lb),
          isAddressAllowed t.tree.getRoot ab
            (prf.map (fun p => jsHexBytes (jsSliceFrom2 p))))
      | _, _, _, _ => none) = some (some (true, false)) := by decide

/-- The 20 bytes denoted by addrA. -/
def addrABytes : Bytes := List.replicate 19 0xaa ++ [0x01]

/-- C8: Double-hashed leaves.  The leaf encoder hashes twice — keccak256
of the keccak256 of the 32-byte ABI encoding of the address — and at the
concrete address addrA the double hash provably differs from a single
application. -/
theorem c8_double_hash (s : String) (a : Bytes) (hparse : parseAddress s = some a) :
    hashLeaf ["address"] [s] = .ok (keccak256 (keccak256 (abiEncodeAddress a))) ∧
    parseAddress addrA = some addrABytes ∧
    keccak256 (keccak256 (abiEncodeAddress addrABytes)) ≠
      keccak256 (abiEncodeAddress addrABytes) := by
  refine ⟨?_, by decide, by decide⟩
  have hunfold : hashLeaf ["address"] [s] =
      match parseAddress s with
      | some a => .ok (keccak256 (keccak256 (abiEncodeAddress a)))
      | none => .error "invalid address" := rfl
  rw [hunfold, hparse]

/-- Witness for C8 at the concrete address addrA. -/
theorem c8_double_hash_witness :
    parseAddress addrA = some addrABytes ∧
    (hashLeaf ["address"] [addrA] =
        .ok (keccak256 (keccak256 (abiEncodeAddress addrABytes))) ∧
      parseAddress addrA = some addrABytes ∧
      keccak256 (keccak256 (abiEncodeAddress addrABytes)) ≠
        keccak256 (abiEncodeAddress addrABytes)) :=
  ⟨by decide, c8_double_hash addrA addrABytes (by decide)⟩

/-- C10 counterexample: with the duplicate allowlist [addrA, addrB, addrA]
the proofs returned for positions 0 and 2 are identical, but they are the
sibling path of the LAST occurrence (layer-0 index 2), not of the first:
the path walk from index 0 yields a different proof than getProof(0)
returns. -/
theorem c10_counterexample :
    (buildMerkleTree [addrA, addrB, addrA]).toOption.map (fun t =>
      (decide ((t.getProof 0).toOption = (t.getProof 2).toOption),
       decide ((t.getProof 0).toOption =
         some ((proofWalk t.tree.layers 2).map toHex0x)),
       decide ((t.getProof 0).toOption =
         some ((proofWalk t.tree.layers 0).map toHex0x)))) =
      some (true, true, false) := by decide

/-- C10 as amended: getProof bounds-checks the index but then looks the
proof up by the leaf VALUE stored there, so equal addresses at two
positions receive the identical proof — namely the sibling path of the
last occurrence of that leaf value in layer 0. -/
theorem c10_proof_by_leaf_value (L : List String) (t : CustomMerkleTree) (a : String)
    (i j : Nat) (hbuild : buildMerkleTree L = .ok t)
    (hi : L.get? i = some a) (hj : L.get? j = some a) :
    t.getProof (i : Int) = t.getProof (j : Int) ∧
    (∀ lb k, t.leaves.get? i = some lb → lastIdx lb t.leaves = some k →
      t.getProof (i : Int) = .ok ((proofWalk t.tree.layers k).map toHex0x)) := by
  obtain ⟨leaves, hml, ht⟩ := buildMerkleTree_ok_parts L t hbuild
  subst ht
  obtain ⟨hlen, hspec⟩ := mapLeaves_ok_spec ["address"] (wrapAddresses L) leaves hml
  have hwrapi : (wrapAddresses L).get? i = some [a] := by
    unfold wrapAddresses
    rw [List.get?_map, hi]
    rfl
  have hwrapj : (wrapAddresses L).get? j = some [a] := by
    unfold wrapAddresses
    rw [List.get?_map, hj]
    rfl
  obtain ⟨lbi, hhi, hgi⟩ := hspec i [a] hwrapi
  obtain ⟨lbj, hhj, hgj⟩ := hspec j [a] hwrapj
  have hsame : lbi = lbj := by
    rw [hhi] at hhj
    exact Except.ok.inj hhj
  subst hsame
  have hiL : i < L.length := (List.get?_eq_some.mp hi).1
  have hjL : j < L.length := (List.get?_eq_some.mp hj).1
  have hlenw : (wrapAddresses L).length = L.length := by
    unfold wrapAddresses
    rw [List.length_map]
  have hgetdi : leaves.getD ((i : Int)).toNat [] = lbi := by
    simp only [Int.toNat_natCast]
    rw [List.getD_eq_get?, hgi]
    rfl
  have hgetdj : leaves.getD ((j : Int)).toNat [] = lbi := by
    simp only [Int.toNat_natCast]
    rw [List.getD_eq_get?, hgj]
    rfl
  have hopen : ∀ n : Nat, n < L.length → leaves.getD ((n : Int)).toNat [] = lbi →
      CustomMerkleTree.getProof
        ⟨wrapAddresses L, ["address"], leaves, MerkleTreeJS.ofLeaves keccak256 leaves, true⟩
        (n : Int) =
        .ok (((MerkleTreeJS.ofLeaves keccak256 leaves).getProof lbi).map toHex0x) := by
    intro n hn hgetd
    unfold CustomMerkleTree.getProof
    rw [if_neg (by simp)]
    rw [if_neg (by
      rw [hlenw]
      omega)]
    rw [hgetd]
  constructor
  · rw [hopen i hiL hgetdi, hopen j hjL hgetdj]
  · intro lb k hleaf hlast
    have hlb : lb = lbi := by
      rw [hgi] at hleaf
      injection hleaf with h
      exact h.symm
    subst hlb
    rw [hopen i hiL hgetdi]
    unfold MerkleTreeJS.getProof MerkleTreeJS.ofLeaves
    simp only
    rw [hlast]

/-- Witness for C10 at the duplicate allowlist. -/
theorem c10_proof_by_leaf_value_witness :
    ∃ t, buildMerkleTree [addrA, addrB, addrA] = .ok t ∧
      (t.getProof ((0 : Nat) : Int) = t.getProof ((2 : Nat) : Int) ∧
       (∀ lb k, t.leaves.get? 0 = some lb → lastIdx lb t.leaves = some k →
         t.getProof ((0 : Nat) : Int) = .ok ((proofWalk t.tree.layers k).map toHex0x))) := by
  obtain ⟨t, ht⟩ : ∃ t, buildMerkleTree [addrA, addrB, addrA] = .ok t := by
    cases hb : buildMerkleTree [addrA, addrB, addrA] with
    | ok t => exact ⟨t, rfl⟩
    | error e =>
      have hsome : (buildMerkleTree [addrA, addrB, addrA]).toOption.isSome = true := by decide
      rw [hb] at hsome
      simp [Except.toOption] at hsome
  exact ⟨t, ht, c10_proof_by_leaf_value [addrA, addrB, addrA] t addrA 0 2 ht rfl rfl⟩

end DappPunks
